import Mathlib

/-!
Verification of the synchronization engine of `notmuch-gmail-sync`
(`notmuch_gmail/__main__.py` and `notmuch_gmail/util.py`).

The engine is shallowly embedded: Python dicts keyed by message id become
association lists (`TagMap`), Python sets of ids become lists considered up
to membership, the Gmail / notmuch / config collaborators (which live
outside the sync-engine sources, behind the `GmailAPI`, `Maildir` and
`Config` interfaces) are modelled from the specification of their port
contracts, and each fallible operation returns `Except`.  Side effects on
the two stores are recorded as an explicit list of `Act`ions so that
ordering and "zero mutation" properties can be stated.
-/

namespace NotmuchGmailSync

/-- Gmail message identifier: opaque, globally unique (spec section 3). -/
abbrev Id := String

/-- A tag set attached to a message.  The engine only ever compares whole
tag sets for equality (`all_local[msg['id']] == msg['tags']`), so the
concrete representation is irrelevant; we fix lists of strings. -/
abbrev Tags := List String

/-- A Python dict from message id to tag set, as an association list. -/
abbrev TagMap := List (Id × Tags)

/-- Dict lookup: first binding of the key wins (Python dicts have unique
keys; where that matters the theorems carry a `Nodup` hypothesis). -/
def alookup : TagMap → Id → Option Tags
  | [], _ => none
  | p :: rest, i => if p.1 = i then some p.2 else alookup rest i

/-- `dict.keys()`. -/
def keysOf (m : TagMap) : List Id := m.map Prod.fst

/-- Dict insertion `d[i] = t`: replace the binding if the key is present,
append it otherwise. -/
def alinsert : TagMap → Id → Tags → TagMap
  | [], i, t => [(i, t)]
  | p :: rest, i, t => if p.1 = i then (i, t) :: rest else p :: alinsert rest i t

/-- `d.update(es)`: insert every binding of `es` in order. -/
def alinsertMany (m : TagMap) (es : TagMap) : TagMap :=
  es.foldl (fun a p => alinsert a p.1 p.2) m

/-- `for k in ks: del d[k]` — remove all bindings whose key is in `ks`. -/
def alEraseKeys (m : TagMap) (ks : List Id) : TagMap :=
  m.filter (fun p => decide (p.1 ∉ ks))

/-- Python set union `s.update(b)` on lists-as-sets: add the elements of
`b` that are not already present. -/
def sunion (a b : List Id) : List Id :=
  b.foldl (fun acc i => if i ∈ acc then acc else acc ++ [i]) a

/-- The `Changes` value object (`__main__.py`, class `Changes`): the five
change categories plus the history cursor to persist on success. -/
structure Changes where
  l_updated : TagMap
  l_new : List Id
  r_updated : TagMap
  r_new : List Id
  r_deleted : List Id
  history_id : Nat
deriving DecidableEq

/-- The configuration values the engine consumes (spec section 6). -/
structure Cfg where
  local_wins : Bool
  push_local_tags : Bool
  index_batch_size : Nat
deriving DecidableEq

/-- `changes.l_updated.keys() & changes.r_updated.keys()` — the conflict
set of `NotmuchGmailSync.merge`. -/
def conflictsOf (c : Changes) : List Id :=
  (keysOf c.l_updated).filter (fun i => (alookup c.r_updated i).isSome)

/-- The conflict-resolution half of `NotmuchGmailSync.merge`
(`__main__.py` lines 253-264): if conflicts exist, drop them from
`r_updated` when `local_wins and push_local_tags`, otherwise drop them
from `l_updated`. -/
def mergeResolve (cfg : Cfg) (c : Changes) : Changes :=
  let cs := conflictsOf c
  if cs.isEmpty then c
  else if cfg.local_wins && cfg.push_local_tags then
    { c with r_updated := alEraseKeys c.r_updated cs }
  else
    { c with l_updated := alEraseKeys c.l_updated cs }

/-! ### The two store ports and the world state

`GmailAPI`, `Maildir` and `Config` are external collaborators (spec
sections 1 and 6); their behaviour is modelled from the spec's port
contracts (section 4.4), while every decision made by the engine itself
(`__main__.py`) is translated from the source. -/

/-- One entry of the remote store's change history. -/
inductive REvent
  | upd (i : Id) (t : Tags)
  | new (i : Id)
  | del (i : Id)
deriving DecidableEq

/-- Modelled from the spec: the remote store (RemoteStore port).  `msgs`
is the current id→tags state, `hist` the current change cursor, `log` the
change history (each event stamped with a cursor value ≤ `hist`),
`minCursor` the oldest cursor the server can still diff from ("cursor too
old" below it), `authOk` whether authentication succeeds, and `pushOk`
whether a bulk tag push succeeds.  `batches` is the paged output of
`all_ids()` (an `(estimate, ids)` pair per page). -/
structure RState where
  msgs : TagMap
  batches : List (Nat × List Id)
  hist : Nat
  log : List (Nat × REvent)
  minCursor : Nat
  authOk : Bool
  pushOk : Bool
deriving DecidableEq

/-- Modelled from the spec: the local store (LocalStore port).  `msgs` is
the current id→tags state; `snapshot` is the state as of the last
persisted "notmuch revision" marker, used by `changes_since_last_sync`. -/
structure LState where
  msgs : TagMap
  snapshot : TagMap
deriving DecidableEq

/-- Modelled from the spec: the persisted sync state owned by `Config`
(the last successful Gmail history id). -/
structure PState where
  lastHistoryId : Option Nat
deriving DecidableEq

/-- The whole two-store world a sync run acts on. -/
structure World where
  rem : RState
  loc : LState
  prst : PState
deriving DecidableEq

/-- The errors of the remote port (`GAPIError` in the source): failed
authentication, a failed bulk tag push, or a change cursor the server can
no longer diff from. -/
inductive GErr
  | auth
  | push
  | tooOld
deriving DecidableEq

/-- Observable effects of a run on the two stores, plus step markers for
the five phases of `NotmuchGmailSync.run`. -/
inductive Act
  | stepMerge
  | stepFetch
  | stepDelete
  | stepPersist
  | pushTags (m : TagMap)
  | applyTags (m : TagMap)
  | storeMsg (i : Id)
  | indexBatch (b : TagMap)
  | deleteMsg (i : Id)
deriving DecidableEq

/-- Which actions mutate one of the two stores (step markers do not). -/
def isMutation : Act → Bool
  | .pushTags _ => true
  | .applyTags _ => true
  | .storeMsg _ => true
  | .indexBatch _ => true
  | .deleteMsg _ => true
  | _ => false

/-- Which actions are phase markers of the run. -/
def isStep : Act → Bool
  | .stepMerge => true
  | .stepFetch => true
  | .stepDelete => true
  | .stepPersist => true
  | _ => false

/-- Modelled from the spec: `api.history_id()` — current change cursor,
side-effect free, always succeeds once authenticated. -/
def historyId (R : RState) : Nat := R.hist

/-- Fold a slice of the remote change log into the
`(updated, new, deleted)` triple returned by `api.get_changes`. -/
def diffOfLog (es : List (Nat × REvent)) : TagMap × List Id × List Id :=
  es.foldl (fun acc e =>
    match e.2 with
    | .upd i t => (alinsert acc.1 i t, acc.2.1, acc.2.2)
    | .new i => (acc.1, sunion acc.2.1 [i], acc.2.2)
    | .del i => (acc.1, acc.2.1, sunion acc.2.2 [i])) ([], [], [])

/-- Modelled from the spec: `api.get_changes(cursor)` — the incremental
diff since `cursor`; fails exactly when the server can no longer resolve
the cursor ("cursor too old", spec section 4.4). -/
def get_changes (R : RState) (cursor : Nat) : Except GErr (TagMap × List Id × List Id) :=
  if cursor < R.minCursor then .error .tooOld
  else .ok (diffOfLog (R.log.filter (fun e => decide (cursor < e.1))))

/-- Modelled from the spec: `api.push_tags(m)` — bulk-apply the tag map to
the remote store; the server advances its cursor and records the pushed
changes in its history. -/
def push_tags (R : RState) (m : TagMap) : Except GErr RState :=
  if R.pushOk then
    .ok { R with
          msgs := alinsertMany R.msgs m,
          hist := R.hist + 1,
          log := R.log ++ m.map (fun p => (R.hist + 1, REvent.upd p.1 p.2)) }
  else .error .push

/-- Modelled from the spec: the messages actually delivered (one callback
invocation each) by `api.get_content(ids, cb)` — the ids of the request
that exist remotely, with their remote tags.  The store location used as
index key by `Maildir.store` is modelled as the message id itself. -/
def deliveredMsgs (R : RState) (ids : List Id) : List (Id × Tags) :=
  ids.filterMap (fun i => (alookup R.msgs i).map (fun t => (i, t)))

/-- Modelled from the spec: `mdir.get_changes()` — local messages whose
tags changed since the snapshot marker, and local messages unknown at the
snapshot. -/
def local_get_changes (L : LState) : TagMap × List Id :=
  (L.msgs.filter (fun p =>
      match alookup L.snapshot p.1 with
      | some t => decide (t ≠ p.2)
      | none => false),
   (L.msgs.filter (fun p => (alookup L.snapshot p.1).isNone)).map Prod.fst)

/-- Modelled from the spec: `mdir.apply_tags(m)` — overwrite the tag sets
of the local messages named in `m`. -/
def apply_tags (L : LState) (m : TagMap) : LState :=
  { L with msgs := L.msgs.map (fun p =>
      match alookup m p.1 with
      | some t => (p.1, t)
      | none => p) }

/-- Modelled from the spec: `mdir.delete(ids)` — remove the named
messages from the local store. -/
def local_delete (L : LState) (ids : List Id) : LState :=
  { L with msgs := L.msgs.filter (fun p => decide (p.1 ∉ ids)) }


/-! ### The sync engine (`NotmuchGmailSync`, translated from the source) -/

/-- `NotmuchGmailSync.changes_incremental` (`__main__.py` lines 140-158):
raises `HistoryError` when no cursor was ever persisted, fetches the
current cursor, and turns any failure of the incremental diff query into
`HistoryError` as well; otherwise combines the remote diff with the local
diff.  The single error value models `HistoryError`. -/
def changes_incremental (W : World) : Except Unit Changes :=
  match W.prst.lastHistoryId with
  | none => .error ()
  | some last =>
    let hid := historyId W.rem
    match get_changes W.rem last with
    | .error _ => .error ()
    | .ok d =>
      .ok ⟨(local_get_changes W.loc).1, (local_get_changes W.loc).2,
           d.1, d.2.1, d.2.2, hid⟩

/-- The batch enumeration loop of `changes_full` (`__main__.py` lines
168-184): accumulate the set of all remote ids and the set of remote ids
unknown locally. -/
def fullScan (batches : List (Nat × List Id)) (all_local : TagMap) : List Id × List Id :=
  batches.foldl (fun acc b =>
    b.2.foldl (fun (acc : List Id × List Id) i =>
      (sunion acc.1 [i],
       if (alookup all_local i).isSome then acc.2 else sunion acc.2 [i])) acc)
    ([], [])

/-- The `get_content(local_ids, callback)` pass of `changes_full`
(`__main__.py` lines 194-212): for every requested id the remote store
can deliver, record its remote tags in `r_updated` when they differ from
the known local copy. -/
def fullTagDiff (R : RState) (all_local : TagMap) (local_ids : List Id) : TagMap :=
  local_ids.foldl (fun acc i =>
    match alookup R.msgs i with
    | none => acc
    | some t =>
      match alookup all_local i with
      | none => acc
      | some lt => if lt = t then acc else alinsert acc i t) []

/-- `NotmuchGmailSync.changes_full` (`__main__.py` lines 160-225),
translated line by line — including `r_deleted = r_all -
all_local.keys()` (line 188) exactly as written in the source, and the
final extra incremental window merged when the remote cursor advanced
past the value recorded at reconciliation start. -/
def changes_full (W : World) : Except GErr Changes :=
  let l_updated := (local_get_changes W.loc).1
  let l_new := (local_get_changes W.loc).2
  let all_local := W.loc.msgs
  let history_id_start := historyId W.rem
  let r_all := (fullScan W.rem.batches all_local).1
  let r_new := (fullScan W.rem.batches all_local).2
  let r_deleted :=
    if all_local.isEmpty then []
    else r_all.filter (fun i => (alookup all_local i).isNone)
  let local_ids :=
    if all_local.isEmpty then []
    else (keysOf all_local).filter (fun i => decide (i ∉ r_deleted))
  let r_updated := fullTagDiff W.rem all_local local_ids
  let history_id := historyId W.rem
  if history_id_start < history_id then
    match get_changes W.rem history_id_start with
    | .error e => .error e
    | .ok d =>
      .ok ⟨l_updated, l_new, alinsertMany r_updated d.1,
           sunion r_new d.2.1, sunion r_deleted d.2.2, history_id⟩
  else
    .ok ⟨l_updated, l_new, r_updated, r_new, r_deleted, history_id⟩

/-- Strategy selection in `NotmuchGmailSync.run` (`__main__.py` lines
288-292): try the incremental diff, fall back to full reconciliation on
`HistoryError`. -/
def detectChanges (W : World) : Except GErr Changes :=
  match changes_incremental W with
  | .ok c => .ok c
  | .error _ => changes_full W

/-- `NotmuchGmailSync.merge` (`__main__.py` lines 250-274): resolve
conflicts, then, if local pushing is enabled and local updates remain,
push them and refresh the ChangeSet's cursor from the remote store
("memorize history_id to avoid pulling back the changes we just
pushed"); finally apply the remaining remote tag changes locally. -/
def merge (cfg : Cfg) (R : RState) (L : LState) (c : Changes) :
    Except GErr (RState × LState × Changes × List Act) :=
  let c1 := mergeResolve cfg c
  if cfg.push_local_tags && !c1.l_updated.isEmpty then
    match push_tags R c1.l_updated with
    | .error e => .error e
    | .ok R' =>
      let c2 := { c1 with history_id := historyId R' }
      if !c2.r_updated.isEmpty then
        .ok (R', apply_tags L c2.r_updated, c2,
             [Act.pushTags c1.l_updated, Act.applyTags c2.r_updated])
      else
        .ok (R', L, c2, [Act.pushTags c1.l_updated])
  else
    if !c1.r_updated.isEmpty then
      .ok (R, apply_tags L c1.r_updated, c1, [Act.applyTags c1.r_updated])
    else
      .ok (R, L, c1, [])

/-- The download loop of `NotmuchGmailSync.fetch` (`__main__.py` lines
233-248): store each delivered message, add it to the pending index
batch, flush the batch through `mdir.index` whenever it reaches
`index_batch_size`, and index the remainder after the loop. -/
def fetchGo (N : Nat) : TagMap → List (Id × Tags) → List Act
  | batch, [] => if batch.isEmpty then [] else [Act.indexBatch batch]
  | batch, m :: rest =>
    let batch' := alinsert batch m.1 m.2
    if batch'.length = N then
      Act.storeMsg m.1 :: Act.indexBatch batch' :: fetchGo N [] rest
    else
      Act.storeMsg m.1 :: fetchGo N batch' rest

/-- `NotmuchGmailSync.fetch` (`__main__.py` lines 227-248): download the
new messages and index them in batches; the local store ends up with
every delivered message indexed. -/
def fetch (cfg : Cfg) (R : RState) (L : LState) (new_ids : List Id) :
    LState × List Act :=
  let msgs := deliveredMsgs R new_ids
  ({ L with msgs := alinsertMany L.msgs msgs },
   fetchGo cfg.index_batch_size [] msgs)

/-- `NotmuchGmailSync.delete` (`__main__.py` lines 276-278):
`mdir.delete(remote_deleted)`, one deletion per id. -/
def deleteStep (L : LState) (ids : List Id) : LState × List Act :=
  (local_delete L ids, ids.map Act.deleteMsg)

/-- The tail of `NotmuchGmailSync.run` after conflict resolution
(`__main__.py` lines 297-305): guarded fetch, unconditional delete, then
persistence of the cursor and of the local snapshot marker
(`update_last_history_id` / `update_last_notmuch_rev`). -/
def afterMerge (cfg : Cfg) (R : RState) (L : LState) (c : Changes)
    (a0 : List Act) : List Act × Except GErr World :=
  let fres :=
    if c.r_new.isEmpty then (L, ([] : List Act))
    else ((fetch cfg R L c.r_new).1, Act.stepFetch :: (fetch cfg R L c.r_new).2)
  let dres := deleteStep fres.1 c.r_deleted
  (a0 ++ fres.2 ++ Act.stepDelete :: dres.2 ++ [Act.stepPersist],
   .ok ⟨R, ⟨dres.1.msgs, dres.1.msgs⟩, ⟨some c.history_id⟩⟩)

/-- Application of a detected ChangeSet (`__main__.py` lines 294-305):
`merge` only when an update map is non-empty, `fetch` only when
`r_new` is non-empty, then delete and persist. -/
def applyChanges (cfg : Cfg) (W : World) (c : Changes) :
    List Act × Except GErr World :=
  if !c.l_updated.isEmpty || !c.r_updated.isEmpty then
    match merge cfg W.rem W.loc c with
    | .error e => ([Act.stepMerge], .error e)
    | .ok (R1, L1, c1, a1) => afterMerge cfg R1 L1 c1 (Act.stepMerge :: a1)
  else
    afterMerge cfg W.rem W.loc c []

/-- `NotmuchGmailSync.run` (`__main__.py` lines 280-305): authenticate
(modelled by the `authOk` gate, covering `auth()` and `update_labels()`),
detect changes with incremental-to-full fallback, then apply them.  The
returned action list records what was done before success or failure. -/
def run (cfg : Cfg) (W : World) : List Act × Except GErr World :=
  if !W.rem.authOk then ([], .error .auth)
  else
    match detectChanges W with
    | .error e => ([], .error e)
    | .ok c => applyChanges cfg W c

/-- The four ways an invocation of `main` (`__main__.py` lines 308-336)
can end: the `--defconfig` short-circuit, a sync run (successful or
failed), detection of an already-running instance, or a user
interrupt (`EOFError` / `KeyboardInterrupt`). -/
inductive MainOutcome
  | defconfig
  | normal (r : List Act × Except GErr World)
  | alreadyRunning
  | interrupted

/-- The process exit code computed by `main` (`__main__.py` lines
308-336): 0 on `--defconfig` and on normal completion, 0 when another
instance is already running, 2 on user interrupt, 1 on `GAPIError`. -/
def exitCode : MainOutcome → Nat
  | .defconfig => 0
  | .normal (_, .ok _) => 0
  | .normal (_, .error _) => 1
  | .alreadyRunning => 0
  | .interrupted => 2

/-- Well-formedness of a world: every logged remote event carries a
cursor value at most the current cursor, the server can still diff from
the current cursor, and local message ids are unique. -/
def Inv (W : World) : Prop :=
  (∀ e ∈ W.rem.log, e.1 ≤ W.rem.hist) ∧
  W.rem.minCursor ≤ W.rem.hist ∧
  (keysOf W.loc.msgs).Nodup

instance (W : World) : Decidable (Inv W) := by
  unfold Inv
  infer_instance

/-- The index invocations contained in an action trace. -/
def indexCalls (acts : List Act) : List TagMap :=
  acts.filterMap (fun a => match a with | .indexBatch b => some b | _ => none)

/-! ### `util.human_size`

`human_size` performs its division loop on CPython floats (IEEE-754
binary64) and formats with `'%.1f'` (correctly rounded, ties to even).
Every finite binary64 value is an exact rational, so the float state is
carried as a `ℚ` holding the exact value of the double, and each float
operation is the corresponding exact operation followed by `fl64`,
rounding to 53 significant bits with ties to even.  The rational helpers
below are defined directly on numerator and denominator (via `mkRat`) so
that concrete evaluations reduce by `decide`. -/

/-- `⌊log₂ n⌋` by repeated halving (fuelled, hence structural); 0 for
`n < 2`. -/
def ilog2Go : Nat → Nat → Nat → Nat
  | 0, _, acc => acc
  | fuel + 1, n, acc => if n < 2 then acc else ilog2Go fuel (n / 2) (acc + 1)

/-- `⌊log₂ n⌋` for `n ≥ 1`. -/
def ilog2 (n : Nat) : Nat := ilog2Go n n 0

/-- Exact rational multiplication, written out on numerator and
denominator. -/
def qmul (a b : ℚ) : ℚ := mkRat (a.num * b.num) (a.den * b.den)

/-- Exact rational division, written out on numerator and denominator
(0 when dividing by 0, a case the loop never reaches). -/
def qdiv (a b : ℚ) : ℚ := mkRat (a.num * b.den * b.num.sign) (a.den * b.num.natAbs)

/-- Exact rational subtraction, written out on numerator and
denominator. -/
def qsub (a b : ℚ) : ℚ := mkRat (a.num * b.den - b.num * a.den) (a.den * b.den)

/-- `2^k` as an exact rational. -/
def pow2 (k : Nat) : ℚ := mkRat (Int.ofNat (Nat.pow 2 k)) 1

/-- Round to the nearest integer, ties to even — the rounding used both
by binary64 arithmetic (on the scaled significand) and by CPython's
`'%.1f'` (on the exact value of the double, scaled by 10). -/
def roundHalfEven (q : ℚ) : ℤ :=
  let f := q.floor
  let r := qsub q (mkRat f 1)
  if r < mkRat 1 2 then f
  else if mkRat 1 2 < r then f + 1
  else if f % 2 = 0 then f else f + 1

/-- IEEE-754 binary64 rounding of an exact rational: scale into
`[2^52, 2^53)`, round the significand to an integer with ties to even,
and scale back.  `human_size`'s loop only rounds quotients ≥ 1 of
magnitude far below the overflow threshold, so neither subnormals nor
infinities arise here; the `q ≤ 0` guard only makes the function
total. -/
def fl64 (q : ℚ) : ℚ :=
  if q ≤ 0 then 0
  else
    let e := ilog2 q.floor.toNat
    if 52 ≤ e then
      qmul (mkRat (roundHalfEven (qdiv q (pow2 (e - 52)))) 1) (pow2 (e - 52))
    else
      qdiv (mkRat (roundHalfEven (qmul q (pow2 (52 - e)))) 1) (pow2 (52 - e))

/-- The smallest positive rational that binary64 rounds to infinity
(`2^1024 - 2^970`): CPython's int/int true division raises
`OverflowError` when the correctly rounded quotient would be infinite. -/
def maxQuot : ℚ := qsub (pow2 1024) (pow2 970)

/-- Does computing this exact quotient overflow binary64? -/
def overflows64 (q : ℚ) : Bool := decide (maxQuot ≤ q)

/-- `util.UNITS`. -/
def UNITS : List String := ["B", "K", "M", "G", "T", "P", "E"]

/-- The division loop of `human_size` (`util.py` lines 32-35), written
with the remaining number of allowed iterations (`UNITS.length - u`) as
explicit fuel so that the recursion is structural: while `size >= 1000`
and the unit index may still grow, `size /= 1000` — a float division,
i.e. the exact quotient rounded by `fl64`. -/
def hsAux : Nat → ℚ → Nat → ℚ × Nat
  | 0, size, u => (size, u)
  | k + 1, size, u =>
    if (1000 : ℚ) ≤ size then hsAux k (fl64 (qdiv size 1000)) (u + 1) else (size, u)

/-- `while size >= 1000 and u < len(UNITS): size /= 1000; u += 1`. -/
def hsLoop (size : ℚ) (u : Nat) : ℚ × Nat := hsAux (UNITS.length - u) size u

/-- CPython's `'%.1f'` on the non-negative doubles this program feeds
it: the exact value of the double, correctly rounded to one decimal
digit with ties to even, rendered as integer part, dot, tenths digit. -/
def fmt1 (q : ℚ) : String :=
  let n : ℤ := roundHalfEven (qmul (mkRat 10 1) q)
  toString (n / 10) ++ "." ++ toString (n % 10)

/-- `util.human_size` (`util.py` lines 26-38).  Sizes below 1000 are
rendered with `str(size)` (an exact integer comparison and rendering).
Otherwise the first division `size /= 1000` is int/float true division:
if its correctly rounded result would overflow binary64, CPython raises
`OverflowError` before assigning, the bare `except:` catches it and the
unchanged integer `size` is returned (the `Sum.inr` case).  Otherwise
the float division loop runs; if it stops inside the unit table the
result is formatted with the unit letter `UNITS[u]`, and if `u` runs
past the table the `IndexError` from `UNITS[u]` is swallowed by the
bare `except:` and the (by then repeatedly divided) `size` is returned.
The only call site passes the integer `msg['sizeEstimate']`, hence the
`Nat` domain. -/
def human_size (size : Nat) : String ⊕ ℚ :=
  if size < 1000 then .inl (toString size)
  else if overflows64 (qdiv (size : ℚ) 1000) then .inr (size : ℚ)
  else
    let r := hsLoop (size : ℚ) 0
    if h : r.2 < UNITS.length then .inl (fmt1 r.1 ++ UNITS.get ⟨r.2, h⟩)
    else .inr r.1

instance {ε α : Type} [DecidableEq ε] [DecidableEq α] : DecidableEq (Except ε α)
  | .ok a, .ok b => decidable_of_iff (a = b) (by simp)
  | .ok _, .error _ => isFalse (by simp)
  | .error _, .ok _ => isFalse (by simp)
  | .error a, .error b => decidable_of_iff (a = b) (by simp)

/-! ### Concrete example states used to evaluate the model -/

/-- A configuration with pushing enabled. -/
def cfgEx : Cfg := ⟨false, true, 3⟩

/-- The spec's full-reconciliation scenario: remote ids `{A,B,C}` with
tags `{A:[x], B:[y], C:[z]}`, local ids `{B,D}` with B's local tags
differing from the remote ones. -/
def exWorldC1 : World :=
  ⟨⟨[("A", ["x"]), ("B", ["y"]), ("C", ["z"])], [(1, ["A", "B", "C"])], 7, [], 0, true, true⟩,
   ⟨[("B", ["y2"]), ("D", ["w"])], [("B", ["y2"]), ("D", ["w"])]⟩,
   ⟨none⟩⟩

/-- The same shape of scenario with different tag values, used to exhibit
the broken `remote_new`/`remote_deleted` disjointness. -/
def exWorldC7 : World :=
  ⟨⟨[("A", ["u"]), ("B", ["v"]), ("C", ["t"])], [(1, ["A", "B"]), (2, ["C"])], 4, [], 0, true, true⟩,
   ⟨[("B", ["v2"]), ("D", ["s"])], [("B", ["v2"]), ("D", ["s"])]⟩,
   ⟨none⟩⟩

/-- The ChangeSet the source's `changes_full` computes on `exWorldC7`. -/
def exChangesC7 : Changes :=
  ⟨[], [], [("B", ["v"])], ["A", "C"], ["A", "C"], 4⟩

/-- An already-converged world: empty stores, cursor 0 persisted. -/
def exIdemW : World := ⟨⟨[], [], 0, [], 0, true, true⟩, ⟨[], []⟩, ⟨some 0⟩⟩

/-- A remote store holding one message `M:[b]`, cursor 4, used to
exercise a push. -/
def exMergeR : RState := ⟨[("M", ["b"])], [], 4, [], 0, true, true⟩

/-- The matching local store (tags of `M` already edited locally). -/
def exMergeL : LState := ⟨[("M", ["b"])], [("M", ["b"])]⟩

/-- A ChangeSet with one pending local tag update for `M`. -/
def exMergeC : Changes := ⟨[("M", ["a"])], [], [], [], [], 4⟩

/-- A world whose persisted cursor (2) precedes the oldest cursor the
remote store can still diff from (5): "cursor too old". -/
def exTooOldW : World :=
  ⟨⟨[("X", ["a"])], [(1, ["X"])], 9, [], 5, true, true⟩,
   ⟨[("X", ["a"])], [("X", ["a"])]⟩, ⟨some 2⟩⟩

/-- A world whose remote store rejects authentication. -/
def exNoAuthW : World :=
  ⟨⟨[], [], 0, [], 0, false, true⟩, ⟨[], []⟩, ⟨some 0⟩⟩

/-- A world with one pending local tag edit whose push will fail. -/
def exPushFailW : World :=
  ⟨⟨[("M", ["b"])], [(1, ["M"])], 3, [], 0, true, false⟩,
   ⟨[("M", ["a"])], [("M", ["b"])]⟩, ⟨some 3⟩⟩

/-- A fully converged world: the detected ChangeSet is empty, in
particular `remote_deleted` is empty. -/
def exQuietW : World :=
  ⟨⟨[("B", ["y"])], [(1, ["B"])], 7, [], 0, true, true⟩,
   ⟨[("B", ["y"])], [("B", ["y"])]⟩, ⟨some 7⟩⟩

/-! ### Association-list lemmas -/

theorem alookup_filter_key (m : TagMap) (q : Id → Bool) (i : Id) :
    alookup (m.filter (fun p => q p.1)) i = if q i then alookup m i else none := by
  induction m with
  | nil => simp [alookup]
  | cons p rest ih =>
    by_cases hq : q p.1
    · by_cases hpi : p.1 = i
      · subst hpi
        simp [List.filter_cons, hq, alookup]
      · simp [List.filter_cons, hq, alookup, hpi, ih]
    · by_cases hpi : p.1 = i
      · subst hpi
        simp only [List.filter_cons, Bool.not_eq_true] at *
        simp [hq, ih, alookup]
      · simp [List.filter_cons, hq, alookup, hpi, ih]

theorem alookup_eraseKeys (m : TagMap) (ks : List Id) (i : Id) :
    alookup (alEraseKeys m ks) i = if i ∈ ks then none else alookup m i := by
  have h := alookup_filter_key m (fun j => decide (j ∉ ks)) i
  unfold alEraseKeys
  by_cases hi : i ∈ ks <;> simp [hi] at h ⊢ <;> exact h

theorem alookup_isSome_iff (m : TagMap) (i : Id) :
    (alookup m i).isSome ↔ i ∈ keysOf m := by
  induction m with
  | nil => simp [alookup, keysOf]
  | cons p rest ih =>
    by_cases hpi : p.1 = i
    · subst hpi; simp [alookup, keysOf]
    · simp [alookup, keysOf, hpi, ih, Ne.symm hpi]

theorem mem_conflictsOf (c : Changes) (i : Id) :
    i ∈ conflictsOf c ↔
      ((alookup c.l_updated i).isSome ∧ (alookup c.r_updated i).isSome) := by
  unfold conflictsOf
  rw [List.mem_filter]
  rw [← alookup_isSome_iff]

theorem mergeResolve_noConflict (cfg : Cfg) (c : Changes)
    (hcs : (conflictsOf c).isEmpty = true) : mergeResolve cfg c = c := by
  unfold mergeResolve
  rw [if_pos hcs]

theorem mergeResolve_localWins (cfg : Cfg) (c : Changes)
    (hb : (cfg.local_wins && cfg.push_local_tags) = true)
    (hcs : ¬(conflictsOf c).isEmpty = true) :
    mergeResolve cfg c = { c with r_updated := alEraseKeys c.r_updated (conflictsOf c) } := by
  unfold mergeResolve
  rw [if_neg hcs, if_pos hb]

theorem mergeResolve_remoteWins (cfg : Cfg) (c : Changes)
    (hb : (cfg.local_wins && cfg.push_local_tags) = false)
    (hcs : ¬(conflictsOf c).isEmpty = true) :
    mergeResolve cfg c = { c with l_updated := alEraseKeys c.l_updated (conflictsOf c) } := by
  unfold mergeResolve
  rw [if_neg hcs, if_neg (by simp [hb])]

/-- C2: Conflict resolution removes each conflicting id from exactly one
of the two update maps — from `r_updated` when `local_wins` and
`push_local_tags` are both set, from `l_updated` in every other flag
combination — while ids outside the conflict set and the fields `l_new`,
`r_new`, `r_deleted` (and the cursor) are untouched. -/
theorem merge_resolves_conflicts_by_policy (cfg : Cfg) (c : Changes) :
    (mergeResolve cfg c).l_new = c.l_new ∧
    (mergeResolve cfg c).r_new = c.r_new ∧
    (mergeResolve cfg c).r_deleted = c.r_deleted ∧
    (mergeResolve cfg c).history_id = c.history_id ∧
    (∀ i : Id, (alookup c.l_updated i).isSome → (alookup c.r_updated i).isSome →
      ((cfg.local_wins && cfg.push_local_tags) = true →
        alookup (mergeResolve cfg c).r_updated i = none ∧
        alookup (mergeResolve cfg c).l_updated i = alookup c.l_updated i) ∧
      ((cfg.local_wins && cfg.push_local_tags) = false →
        alookup (mergeResolve cfg c).l_updated i = none ∧
        alookup (mergeResolve cfg c).r_updated i = alookup c.r_updated i)) ∧
    (∀ i : Id, ¬((alookup c.l_updated i).isSome ∧ (alookup c.r_updated i).isSome) →
      alookup (mergeResolve cfg c).l_updated i = alookup c.l_updated i ∧
      alookup (mergeResolve cfg c).r_updated i = alookup c.r_updated i) := by
  by_cases hcs : (conflictsOf c).isEmpty = true
  · rw [mergeResolve_noConflict cfg c hcs]
    refine ⟨rfl, rfl, rfl, rfl, ?_, fun i _ => ⟨rfl, rfl⟩⟩
    intro i hl hr
    exfalso
    have hm : i ∈ conflictsOf c := (mem_conflictsOf c i).mpr ⟨hl, hr⟩
    rw [List.isEmpty_iff] at hcs
    rw [hcs] at hm
    exact absurd hm (List.not_mem_nil i)
  · by_cases hb : (cfg.local_wins && cfg.push_local_tags) = true
    · rw [mergeResolve_localWins cfg c hb hcs]
      refine ⟨rfl, rfl, rfl, rfl, ?_, ?_⟩
      · intro i hl hr
        have hmem : i ∈ conflictsOf c := (mem_conflictsOf c i).mpr ⟨hl, hr⟩
        refine ⟨fun _ => ⟨?_, rfl⟩, fun hfalse => ?_⟩
        · simp [alookup_eraseKeys, hmem]
        · rw [hb] at hfalse
          exact absurd hfalse (by simp)
      · intro i hni
        have hmem : i ∉ conflictsOf c := fun hm => hni ((mem_conflictsOf c i).mp hm)
        exact ⟨rfl, by simp [alookup_eraseKeys, hmem]⟩
    · have hb' : (cfg.local_wins && cfg.push_local_tags) = false := by
        revert hb; cases cfg.local_wins && cfg.push_local_tags <;> simp
      rw [mergeResolve_remoteWins cfg c hb' hcs]
      refine ⟨rfl, rfl, rfl, rfl, ?_, ?_⟩
      · intro i hl hr
        have hmem : i ∈ conflictsOf c := (mem_conflictsOf c i).mpr ⟨hl, hr⟩
        refine ⟨fun htrue => ?_, fun _ => ⟨?_, rfl⟩⟩
        · rw [hb'] at htrue
          exact absurd htrue (by simp)
        · simp [alookup_eraseKeys, hmem]
      · intro i hni
        have hmem : i ∉ conflictsOf c := fun hm => hni ((mem_conflictsOf c i).mp hm)
        exact ⟨by simp [alookup_eraseKeys, hmem], rfl⟩

/-- Concrete instantiation of the conflict-resolution theorem: the spec's
own scenario (`local_wins=true, push_local_tags=true`, id `M` updated on
both sides) resolved in favour of the local side. -/
theorem merge_resolves_conflicts_by_policy_witness :
    (alookup [("M", ["a"])] "M").isSome = true ∧
    (alookup [("M", ["b"])] "M").isSome = true ∧
    alookup (mergeResolve ⟨true, true, 10⟩
      ⟨[("M", ["a"])], [], [("M", ["b"])], [], [], 0⟩).r_updated "M" = none ∧
    alookup (mergeResolve ⟨true, true, 10⟩
      ⟨[("M", ["a"])], [], [("M", ["b"])], [], [], 0⟩).l_updated "M" = some ["a"] := by
  have h := (merge_resolves_conflicts_by_policy ⟨true, true, 10⟩
      ⟨[("M", ["a"])], [], [("M", ["b"])], [], [], 0⟩).2.2.2.2.1 "M"
      (by decide) (by decide)
  refine ⟨by decide, by decide, (h.1 (by decide)).1, ?_⟩
  have h2 := (h.1 (by decide)).2
  rw [h2]
  decide

theorem keysOf_cons (p : Id × Tags) (m : TagMap) :
    keysOf (p :: m) = p.1 :: keysOf m := rfl

theorem keysOf_append (a b : TagMap) :
    keysOf (a ++ b) = keysOf a ++ keysOf b := List.map_append _ _ _

theorem alinsert_of_not_mem (m : TagMap) (i : Id) (t : Tags)
    (h : i ∉ keysOf m) : alinsert m i t = m ++ [(i, t)] := by
  induction m with
  | nil => rfl
  | cons p rest ih =>
    rw [keysOf_cons, List.mem_cons] at h
    push_neg at h
    simp only [alinsert]
    rw [if_neg (Ne.symm h.1), ih h.2]
    simp

theorem length_alinsert_le (m : TagMap) (i : Id) (t : Tags) :
    (alinsert m i t).length ≤ m.length + 1 := by
  induction m with
  | nil => simp [alinsert]
  | cons p rest ih =>
    simp only [alinsert]
    by_cases hp : p.1 = i
    · simp [hp]
    · simp only [hp, if_false, List.length_cons]
      omega

/-! ### The batching lemmas behind `fetch` -/

theorem indexCalls_nil : indexCalls [] = [] := rfl

theorem indexCalls_store (i : Id) (acts : List Act) :
    indexCalls (Act.storeMsg i :: acts) = indexCalls acts := rfl

theorem indexCalls_index (b : TagMap) (acts : List Act) :
    indexCalls (Act.indexBatch b :: acts) = b :: indexCalls acts := rfl

theorem fetchGo_join (N : Nat) (batch : TagMap) (msgs : List (Id × Tags))
    (hnd : (keysOf batch ++ msgs.map Prod.fst).Nodup) :
    (indexCalls (fetchGo N batch msgs)).flatten = batch ++ msgs := by
  induction msgs generalizing batch with
  | nil =>
    by_cases hb : batch.isEmpty
    · rw [List.isEmpty_iff] at hb
      subst hb
      simp [fetchGo, indexCalls_nil]
    · simp only [fetchGo]
      rw [if_neg hb]
      simp [indexCalls]
  | cons m rest ih =>
    simp only [List.map_cons] at hnd
    obtain ⟨d1, d2, dj⟩ := List.nodup_append.mp hnd
    have hm1 : m.1 ∉ keysOf batch := fun hmem => dj hmem (List.mem_cons_self _ _)
    have hins : alinsert batch m.1 m.2 = batch ++ [(m.1, m.2)] :=
      alinsert_of_not_mem batch m.1 m.2 hm1
    simp only [fetchGo]
    by_cases hfl : (alinsert batch m.1 m.2).length = N
    · rw [if_pos hfl]
      rw [indexCalls_store, indexCalls_index, List.flatten_cons]
      have hrest : (keysOf ([] : TagMap) ++ rest.map Prod.fst).Nodup := by
        simpa using d2.of_cons
      rw [ih [] hrest, hins]
      simp
    · rw [if_neg hfl, indexCalls_store]
      have hrest : (keysOf (alinsert batch m.1 m.2) ++ rest.map Prod.fst).Nodup := by
        rw [hins, keysOf_append]
        have : keysOf [(m.1, m.2)] = [m.1] := rfl
        rw [this, List.append_assoc]
        simpa using hnd
      rw [ih _ hrest, hins]
      simp

theorem fetchGo_count (N : Nat) (batch : TagMap) (msgs : List (Id × Tags))
    (hlen : batch.length < N)
    (hnd : (keysOf batch ++ msgs.map Prod.fst).Nodup) :
    (indexCalls (fetchGo N batch msgs)).length
      = (batch.length + msgs.length + N - 1) / N := by
  have hN : 0 < N := Nat.lt_of_le_of_lt (Nat.zero_le _) hlen
  induction msgs generalizing batch with
  | nil =>
    by_cases hb : batch.isEmpty
    · rw [List.isEmpty_iff] at hb
      subst hb
      simp only [fetchGo, List.isEmpty_nil, if_true, indexCalls_nil,
        List.length_nil]
      rw [Nat.div_eq_of_lt (by omega)]
    · simp only [fetchGo]
      rw [if_neg hb, indexCalls_index, indexCalls_nil]
      simp only [List.length_cons, List.length_nil]
      have hb' : 1 ≤ batch.length := by
        rcases batch with _ | _
        · simp at hb
        · simp
      have hsplit : batch.length + 0 + N - 1 = (batch.length - 1) + N := by omega
      rw [hsplit, Nat.add_div_right _ hN,
        Nat.div_eq_of_lt (show batch.length - 1 < N by omega)]
  | cons m rest ih =>
    simp only [List.map_cons] at hnd
    obtain ⟨d1, d2, dj⟩ := List.nodup_append.mp hnd
    have hm1 : m.1 ∉ keysOf batch := fun hmem => dj hmem (List.mem_cons_self _ _)
    have hins : alinsert batch m.1 m.2 = batch ++ [(m.1, m.2)] :=
      alinsert_of_not_mem batch m.1 m.2 hm1
    have hlen' : (alinsert batch m.1 m.2).length = batch.length + 1 := by
      rw [hins]; simp
    simp only [fetchGo]
    by_cases hfl : (alinsert batch m.1 m.2).length = N
    · rw [if_pos hfl, indexCalls_store, indexCalls_index, List.length_cons]
      have hrest : (keysOf ([] : TagMap) ++ rest.map Prod.fst).Nodup := by
        simpa using d2.of_cons
      rw [ih [] (by simp only [List.length_nil]; omega) hrest]
      have hbN : batch.length + 1 = N := by rw [← hlen', hfl]
      simp only [List.length_nil, Nat.zero_add, List.length_cons]
      have hsplit : batch.length + (rest.length + 1) + N - 1
          = (rest.length + N - 1) + N := by omega
      rw [hsplit, Nat.add_div_right _ hN]
    · rw [if_neg hfl, indexCalls_store]
      have hlt : (alinsert batch m.1 m.2).length < N := by
        rw [hlen'] at hfl ⊢
        omega
      have hrest : (keysOf (alinsert batch m.1 m.2) ++ rest.map Prod.fst).Nodup := by
        rw [hins, keysOf_append]
        have : keysOf [(m.1, m.2)] = [m.1] := rfl
        rw [this, List.append_assoc]
        simpa using hnd
      rw [ih _ hlt hrest, hlen']
      congr 1
      simp only [List.length_cons]
      omega

theorem fetchGo_sizes (N : Nat) (batch : TagMap) (msgs : List (Id × Tags))
    (hlen : batch.length < N) :
    ∀ b ∈ indexCalls (fetchGo N batch msgs), b.length ≤ N := by
  induction msgs generalizing batch with
  | nil =>
    by_cases hb : batch.isEmpty
    · simp [fetchGo, hb, indexCalls_nil]
    · simp only [fetchGo]
      rw [if_neg hb]
      intro b hbmem
      rw [indexCalls_index, indexCalls_nil, List.mem_singleton] at hbmem
      subst hbmem
      omega
  | cons m rest ih =>
    simp only [fetchGo]
    by_cases hfl : (alinsert batch m.1 m.2).length = N
    · rw [if_pos hfl]
      intro b hbmem
      rw [indexCalls_store, indexCalls_index, List.mem_cons] at hbmem
      rcases hbmem with hbmem | hbmem
      · subst hbmem; omega
      · exact ih [] (by simp only [List.length_nil]; omega) b hbmem
    · rw [if_neg hfl]
      intro b hbmem
      rw [indexCalls_store] at hbmem
      have hlt : (alinsert batch m.1 m.2).length < N := by
        have := length_alinsert_le batch m.1 m.2
        omega
      exact ih _ hlt b hbmem

/-- C5: With batch size `N ≥ 1` and `M > N` messages delivered one per
callback with pairwise distinct store locations, `fetch` invokes the
index operation exactly `⌈M/N⌉` times (written `(M + N - 1) / N`), each
invocation covers at most `N` messages, and the concatenation of all
indexed batches is exactly the delivered message list — so every message
is indexed exactly once. -/
theorem fetch_indexes_in_batches (cfg : Cfg) (R : RState) (L : LState)
    (ids : List Id)
    (hN : 1 ≤ cfg.index_batch_size)
    (hM : cfg.index_batch_size < (deliveredMsgs R ids).length)
    (hnd : ((deliveredMsgs R ids).map Prod.fst).Nodup) :
    (indexCalls (fetch cfg R L ids).2).length
      = ((deliveredMsgs R ids).length + cfg.index_batch_size - 1)
          / cfg.index_batch_size ∧
    (∀ b ∈ indexCalls (fetch cfg R L ids).2, b.length ≤ cfg.index_batch_size) ∧
    (indexCalls (fetch cfg R L ids).2).flatten = deliveredMsgs R ids := by
  have h2 : (fetch cfg R L ids).2
      = fetchGo cfg.index_batch_size [] (deliveredMsgs R ids) := rfl
  rw [h2]
  refine ⟨?_, ?_, ?_⟩
  · have := fetchGo_count cfg.index_batch_size [] (deliveredMsgs R ids)
      (by simp only [List.length_nil]; omega) (by simpa using hnd)
    simpa using this
  · exact fetchGo_sizes _ _ _ (by simp only [List.length_nil]; omega)
  · have := fetchGo_join cfg.index_batch_size [] (deliveredMsgs R ids)
      (by simpa using hnd)
    simpa using this

/-- Concrete instantiation of the batching theorem: batch size 2, five
delivered messages, three index calls of sizes 2, 2, 1. -/
theorem fetch_indexes_in_batches_witness :
    1 ≤ (2 : Nat) ∧
    (2 : Nat) < (deliveredMsgs
      ⟨[("a", ["1"]), ("b", ["2"]), ("c", ["3"]), ("d", ["4"]), ("e", ["5"])],
        [], 0, [], 0, true, true⟩ ["a", "b", "c", "d", "e"]).length ∧
    (indexCalls (fetch ⟨false, true, 2⟩
      ⟨[("a", ["1"]), ("b", ["2"]), ("c", ["3"]), ("d", ["4"]), ("e", ["5"])],
        [], 0, [], 0, true, true⟩ ⟨[], []⟩ ["a", "b", "c", "d", "e"]).2).length = 3 := by
  refine ⟨by decide, by decide, ?_⟩
  have h := (fetch_indexes_in_batches ⟨false, true, 2⟩
      ⟨[("a", ["1"]), ("b", ["2"]), ("c", ["3"]), ("d", ["4"]), ("e", ["5"])],
        [], 0, [], 0, true, true⟩ ⟨[], []⟩ ["a", "b", "c", "d", "e"]
      (by decide) (by decide) (by decide)).1
  rw [h]
  decide

/-! ### Lemmas about `merge`, `push_tags` and `get_changes` -/

theorem mergeResolve_preserves (cfg : Cfg) (c : Changes) :
    (mergeResolve cfg c).l_new = c.l_new ∧
    (mergeResolve cfg c).r_new = c.r_new ∧
    (mergeResolve cfg c).r_deleted = c.r_deleted ∧
    (mergeResolve cfg c).history_id = c.history_id := by
  by_cases hcs : (conflictsOf c).isEmpty = true
  · rw [mergeResolve_noConflict cfg c hcs]
    exact ⟨rfl, rfl, rfl, rfl⟩
  · by_cases hb : (cfg.local_wins && cfg.push_local_tags) = true
    · rw [mergeResolve_localWins cfg c hb hcs]
      exact ⟨rfl, rfl, rfl, rfl⟩
    · have hb' : (cfg.local_wins && cfg.push_local_tags) = false := by
        revert hb; cases cfg.local_wins && cfg.push_local_tags <;> simp
      rw [mergeResolve_remoteWins cfg c hb' hcs]
      exact ⟨rfl, rfl, rfl, rfl⟩

theorem keysOf_apply_tags (L : LState) (m : TagMap) :
    keysOf (apply_tags L m).msgs = keysOf L.msgs := by
  unfold apply_tags keysOf
  rw [List.map_map]
  apply List.map_congr_left
  intro p _
  cases h : alookup m p.1 <;> simp [h]

theorem push_tags_ok (R : RState) (m : TagMap) (R' : RState)
    (h : push_tags R m = .ok R') :
    R' = { R with
           msgs := alinsertMany R.msgs m,
           hist := R.hist + 1,
           log := R.log ++ m.map (fun p => (R.hist + 1, REvent.upd p.1 p.2)) } := by
  unfold push_tags at h
  by_cases hp : R.pushOk = true
  · rw [if_pos hp] at h
    injection h with h
    exact h.symm
  · rw [if_neg hp] at h
    exact Except.noConfusion h

theorem push_tags_log_bound (R : RState) (m : TagMap) (R' : RState)
    (hlog : ∀ e ∈ R.log, e.1 ≤ R.hist)
    (h : push_tags R m = .ok R') :
    (∀ e ∈ R'.log, e.1 ≤ R'.hist) ∧ R'.hist = R.hist + 1 ∧
    R'.minCursor = R.minCursor ∧ R'.authOk = R.authOk ∧ R'.pushOk = R.pushOk := by
  rw [push_tags_ok R m R' h]
  refine ⟨?_, rfl, rfl, rfl, rfl⟩
  intro e he
  rw [List.mem_append] at he
  rcases he with he | he
  · exact Nat.le_succ_of_le (hlog e he)
  · rw [List.mem_map] at he
    obtain ⟨p, _, hp⟩ := he
    rw [← hp]

theorem get_changes_at_current (R : RState)
    (hlog : ∀ e ∈ R.log, e.1 ≤ R.hist) (hmin : R.minCursor ≤ R.hist) :
    get_changes R R.hist = .ok ([], [], []) := by
  unfold get_changes
  rw [if_neg (by omega)]
  have hfil : R.log.filter (fun e => decide (R.hist < e.1)) = [] := by
    rw [List.filter_eq_nil_iff]
    intro e he
    have := hlog e he
    simp only [decide_eq_true_eq]
    omega
  rw [hfil]
  rfl

theorem merge_post (cfg : Cfg) (R : RState) (L : LState) (c : Changes)
    (R1 : RState) (L1 : LState) (c1 : Changes) (a1 : List Act)
    (hlog : ∀ e ∈ R.log, e.1 ≤ R.hist) (hmin : R.minCursor ≤ R.hist)
    (hch : c.history_id = R.hist)
    (hm : merge cfg R L c = .ok (R1, L1, c1, a1)) :
    (∀ e ∈ R1.log, e.1 ≤ R1.hist) ∧ R1.minCursor ≤ R1.hist ∧
    c1.history_id = R1.hist ∧ R1.authOk = R.authOk ∧
    c1.r_new = c.r_new ∧ c1.r_deleted = c.r_deleted ∧
    ((keysOf L.msgs).Nodup → (keysOf L1.msgs).Nodup) ∧
    a1.filter isStep = [] := by
  have hpres := mergeResolve_preserves cfg c
  simp only [merge] at hm
  by_cases hg : (cfg.push_local_tags && !(mergeResolve cfg c).l_updated.isEmpty) = true
  · rw [if_pos hg] at hm
    rcases hp : push_tags R (mergeResolve cfg c).l_updated with e | Rp
    · rw [hp] at hm
      dsimp only at hm
      exact Except.noConfusion hm
    · rw [hp] at hm
      dsimp only at hm
      have hpb := push_tags_log_bound R _ Rp hlog hp
      by_cases hru : (!(mergeResolve cfg c).r_updated.isEmpty) = true
      · rw [if_pos hru] at hm
        simp only [Except.ok.injEq, Prod.mk.injEq] at hm
        obtain ⟨hR, hL, hc, ha⟩ := hm
        subst hR hL hc ha
        refine ⟨hpb.1, ?_, rfl, hpb.2.2.2.1, hpres.2.1, hpres.2.2.1, ?_, by simp [isStep]⟩
        · rw [hpb.2.2.1, hpb.2.1]
          omega
        · intro hnd
          rw [keysOf_apply_tags]
          exact hnd
      · rw [if_neg hru] at hm
        simp only [Except.ok.injEq, Prod.mk.injEq] at hm
        obtain ⟨hR, hL, hc, ha⟩ := hm
        subst hR hL hc ha
        refine ⟨hpb.1, ?_, rfl, hpb.2.2.2.1, hpres.2.1, hpres.2.2.1,
          fun hnd => hnd, by simp [isStep]⟩
        rw [hpb.2.2.1, hpb.2.1]
        omega
  · rw [if_neg hg] at hm
    by_cases hru : (!(mergeResolve cfg c).r_updated.isEmpty) = true
    · rw [if_pos hru] at hm
      simp only [Except.ok.injEq, Prod.mk.injEq] at hm
      obtain ⟨hR, hL, hc, ha⟩ := hm
      subst hR hL hc ha
      refine ⟨hlog, hmin, ?_, rfl, hpres.2.1, hpres.2.2.1, ?_, by simp [isStep]⟩
      · rw [hpres.2.2.2, hch]
      · intro hnd
        rw [keysOf_apply_tags]
        exact hnd
    · rw [if_neg hru] at hm
      simp only [Except.ok.injEq, Prod.mk.injEq] at hm
      obtain ⟨hR, hL, hc, ha⟩ := hm
      subst hR hL hc ha
      refine ⟨hlog, hmin, ?_, rfl, hpres.2.1, hpres.2.2.1, fun hnd => hnd, rfl⟩
      rw [hpres.2.2.2, hch]

/-- C6: Whenever local pushing is enabled and `l_updated` is non-empty
after conflict resolution, `merge` pushes the local tag changes and then
overwrites the ChangeSet's cursor with the freshly re-fetched remote
cursor; an incremental diff taken at that refreshed cursor is empty, so
the just-pushed tags are not reclassified as a remote update.  When
pushing is disabled or nothing remains to push, the cursor is left
untouched and the remote store is not contacted. -/
theorem merge_push_refreshes_cursor (cfg : Cfg) (R : RState) (L : LState)
    (c : Changes) (R' : RState) (L' : LState) (c' : Changes) (acts : List Act)
    (hpushOk : R.pushOk = true)
    (hlog : ∀ e ∈ R.log, e.1 ≤ R.hist) (hmin : R.minCursor ≤ R.hist)
    (hm : merge cfg R L c = .ok (R', L', c', acts)) :
    ((cfg.push_local_tags && !(mergeResolve cfg c).l_updated.isEmpty) = true →
      c'.history_id = historyId R' ∧
      Act.pushTags (mergeResolve cfg c).l_updated ∈ acts ∧
      get_changes R' c'.history_id = .ok ([], [], [])) ∧
    ((cfg.push_local_tags && !(mergeResolve cfg c).l_updated.isEmpty) = false →
      c'.history_id = c.history_id ∧ R' = R) := by
  simp only [merge] at hm
  by_cases hg : (cfg.push_local_tags && !(mergeResolve cfg c).l_updated.isEmpty) = true
  · rw [if_pos hg] at hm
    rcases hp : push_tags R (mergeResolve cfg c).l_updated with e | Rp
    · rw [hp] at hm
      dsimp only at hm
      exact Except.noConfusion hm
    · rw [hp] at hm
      dsimp only at hm
      have hpb := push_tags_log_bound R _ Rp hlog hp
      have hminp : Rp.minCursor ≤ Rp.hist := by
        rw [hpb.2.2.1, hpb.2.1]; omega
      constructor
      · intro _
        by_cases hru : (!(mergeResolve cfg c).r_updated.isEmpty) = true
        · rw [if_pos hru] at hm
          simp only [Except.ok.injEq, Prod.mk.injEq] at hm
          obtain ⟨hR, _, hc, ha⟩ := hm
          subst hR hc ha
          exact ⟨rfl, by simp, get_changes_at_current Rp hpb.1 hminp⟩
        · rw [if_neg hru] at hm
          simp only [Except.ok.injEq, Prod.mk.injEq] at hm
          obtain ⟨hR, _, hc, ha⟩ := hm
          subst hR hc ha
          exact ⟨rfl, by simp, get_changes_at_current Rp hpb.1 hminp⟩
      · intro hfalse
        rw [hg] at hfalse
        exact absurd hfalse (by simp)
  · rw [if_neg hg] at hm
    have hg' : (cfg.push_local_tags && !(mergeResolve cfg c).l_updated.isEmpty) = false := by
      revert hg
      cases cfg.push_local_tags && !(mergeResolve cfg c).l_updated.isEmpty <;> simp
    refine ⟨fun htrue => ?_, fun _ => ?_⟩
    · rw [hg'] at htrue
      exact absurd htrue (by simp)
    · have hpres := mergeResolve_preserves cfg c
      by_cases hru : (!(mergeResolve cfg c).r_updated.isEmpty) = true
      · rw [if_pos hru] at hm
        simp only [Except.ok.injEq, Prod.mk.injEq] at hm
        obtain ⟨hR, _, hc, _⟩ := hm
        subst hR hc
        exact ⟨hpres.2.2.2, rfl⟩
      · rw [if_neg hru] at hm
        simp only [Except.ok.injEq, Prod.mk.injEq] at hm
        obtain ⟨hR, _, hc, _⟩ := hm
        subst hR hc
        exact ⟨hpres.2.2.2, rfl⟩

/-- Concrete instantiation of the cursor-refresh theorem: pushing the
local edit `M:[a]` advances the cursor to 5, the ChangeSet records 5,
and the diff at cursor 5 is empty. -/
theorem merge_push_refreshes_cursor_witness :
    get_changes
      (⟨[("M", ["a"])], [], 5, [(5, REvent.upd "M" ["a"])], 0, true, true⟩ : RState) 5
      = .ok ([], [], []) ∧
    (⟨[("M", ["a"])], [], [], [], [], 5⟩ : Changes).history_id
      = historyId ⟨[("M", ["a"])], [], 5, [(5, REvent.upd "M" ["a"])], 0, true, true⟩ := by
  have h := (merge_push_refreshes_cursor cfgEx exMergeR exMergeL exMergeC
      ⟨[("M", ["a"])], [], 5, [(5, REvent.upd "M" ["a"])], 0, true, true⟩
      exMergeL ⟨[("M", ["a"])], [], [], [], [], 5⟩ [Act.pushTags [("M", ["a"])]]
      (by decide) (by decide) (by decide) (by decide)).1 (by decide)
  exact ⟨h.2.2, h.1⟩

/-! ### Key-uniqueness preservation -/

theorem keysOf_alinsert_of_mem (m : TagMap) (i : Id) (t : Tags)
    (h : i ∈ keysOf m) : keysOf (alinsert m i t) = keysOf m := by
  induction m with
  | nil => simp [keysOf] at h
  | cons p rest ih =>
    simp only [alinsert]
    by_cases hp : p.1 = i
    · rw [if_pos hp, keysOf_cons, keysOf_cons, hp]
    · rw [if_neg hp, keysOf_cons, keysOf_cons]
      rw [keysOf_cons, List.mem_cons] at h
      rcases h with h | h
      · exact absurd h.symm hp
      · rw [ih h]

theorem keysOf_alinsert_nodup (m : TagMap) (i : Id) (t : Tags)
    (h : (keysOf m).Nodup) : (keysOf (alinsert m i t)).Nodup := by
  by_cases hm : i ∈ keysOf m
  · rw [keysOf_alinsert_of_mem m i t hm]
    exact h
  · rw [alinsert_of_not_mem m i t hm, keysOf_append]
    rw [List.nodup_append]
    refine ⟨h, List.nodup_singleton _, ?_⟩
    intro a ha
    simp only [keysOf, List.map_cons, List.map_nil, List.mem_singleton]
    intro hai
    subst hai
    exact hm ha

theorem keysOf_alinsertMany_nodup (es : TagMap) (m : TagMap)
    (h : (keysOf m).Nodup) : (keysOf (alinsertMany m es)).Nodup := by
  induction es generalizing m with
  | nil => exact h
  | cons e es ih =>
    have : alinsertMany m (e :: es) = alinsertMany (alinsert m e.1 e.2) es := rfl
    rw [this]
    exact ih _ (keysOf_alinsert_nodup m e.1 e.2 h)

theorem keysOf_filter_nodup (m : TagMap) (q : Id × Tags → Bool)
    (h : (keysOf m).Nodup) : (keysOf (m.filter q)).Nodup :=
  List.Nodup.sublist (List.Sublist.map Prod.fst (List.filter_sublist m)) h

/-! ### Change detection lemmas -/

theorem changes_incremental_history (W : World) (c : Changes)
    (h : changes_incremental W = .ok c) : c.history_id = W.rem.hist := by
  unfold changes_incremental at h
  cases hl : W.prst.lastHistoryId with
  | none =>
    rw [hl] at h
    exact Except.noConfusion h
  | some last =>
    rw [hl] at h
    dsimp only at h
    cases hg : get_changes W.rem last with
    | error e =>
      rw [hg] at h
      exact Except.noConfusion h
    | ok d =>
      rw [hg] at h
      dsimp only at h
      injection h with h
      rw [← h]
      rfl

theorem changes_full_eq_ok (W : World) :
    ∃ c, changes_full W = .ok c ∧ c.history_id = W.rem.hist := by
  simp only [changes_full, historyId]
  rw [if_neg (lt_irrefl _)]
  exact ⟨_, rfl, rfl⟩

theorem detect_history (W : World) (c : Changes)
    (h : detectChanges W = .ok c) : c.history_id = W.rem.hist := by
  unfold detectChanges at h
  cases hinc : changes_incremental W with
  | ok c0 =>
    rw [hinc] at h
    injection h with h
    subst h
    exact changes_incremental_history W c0 hinc
  | error e =>
    rw [hinc] at h
    obtain ⟨c1, hc1, hh⟩ := changes_full_eq_ok W
    rw [hc1] at h
    injection h with h
    subst h
    exact hh

/-! ### The shape of a completed run -/

theorem fetchGo_no_steps (N : Nat) (batch : TagMap) (msgs : List (Id × Tags)) :
    (fetchGo N batch msgs).filter isStep = [] := by
  induction msgs generalizing batch with
  | nil =>
    by_cases hb : batch.isEmpty
    · simp [fetchGo, hb]
    · simp only [fetchGo]
      rw [if_neg hb]
      simp [isStep]
  | cons m rest ih =>
    simp only [fetchGo]
    by_cases hfl : (alinsert batch m.1 m.2).length = N
    · rw [if_pos hfl]
      simp [isStep, ih]
    · rw [if_neg hfl]
      simp [isStep, ih]

theorem map_deleteMsg_no_steps (ids : List Id) :
    (ids.map Act.deleteMsg).filter isStep = [] := by
  induction ids with
  | nil => rfl
  | cons i rest ih => simp [isStep, ih]

theorem afterMerge_post (cfg : Cfg) (R : RState) (L : LState) (c : Changes)
    (a0 : List Act) (acts : List Act) (W' : World)
    (h : afterMerge cfg R L c a0 = (acts, .ok W')) :
    W'.rem = R ∧ W'.loc.snapshot = W'.loc.msgs ∧
    W'.prst.lastHistoryId = some c.history_id ∧
    ((keysOf L.msgs).Nodup → (keysOf W'.loc.msgs).Nodup) ∧
    acts = a0 ++ (if c.r_new.isEmpty then []
                  else Act.stepFetch :: (fetch cfg R L c.r_new).2)
        ++ Act.stepDelete :: c.r_deleted.map Act.deleteMsg ++ [Act.stepPersist] := by
  unfold afterMerge deleteStep at h
  by_cases hr : c.r_new.isEmpty = true
  · rw [if_pos hr] at h
    rw [if_pos hr]
    dsimp only at h
    simp only [Prod.mk.injEq] at h
    obtain ⟨ha, hW⟩ := h
    injection hW with hW
    subst hW
    exact ⟨rfl, rfl, rfl, fun hnd => keysOf_filter_nodup _ _ hnd, ha.symm⟩
  · rw [if_neg hr] at h
    rw [if_neg hr]
    dsimp only at h
    simp only [Prod.mk.injEq] at h
    obtain ⟨ha, hW⟩ := h
    injection hW with hW
    subst hW
    refine ⟨rfl, rfl, rfl, ?_, ha.symm⟩
    intro hnd
    exact keysOf_filter_nodup _ _ (keysOf_alinsertMany_nodup _ _ hnd)

theorem run_ok_post (cfg : Cfg) (W : World) (acts : List Act) (W' : World)
    (hInv : Inv W) (hrun : run cfg W = (acts, .ok W')) :
    W'.rem.authOk = true ∧ W'.prst.lastHistoryId = some W'.rem.hist ∧
    W'.loc.snapshot = W'.loc.msgs ∧ Inv W' := by
  obtain ⟨hlog, hmin, hnd⟩ := hInv
  unfold run at hrun
  by_cases hauth : W.rem.authOk = true
  · rw [if_neg (by simp [hauth])] at hrun
    cases hdet : detectChanges W with
    | error e =>
      rw [hdet] at hrun
      dsimp only at hrun
      simp only [Prod.mk.injEq] at hrun
      exact Except.noConfusion hrun.2
    | ok c =>
      rw [hdet] at hrun
      dsimp only at hrun
      have hch : c.history_id = W.rem.hist := detect_history W c hdet
      unfold applyChanges at hrun
      by_cases hg : (!c.l_updated.isEmpty || !c.r_updated.isEmpty) = true
      · rw [if_pos hg] at hrun
        cases hmerge : merge cfg W.rem W.loc c with
        | error e =>
          rw [hmerge] at hrun
          dsimp only at hrun
          simp only [Prod.mk.injEq] at hrun
          exact Except.noConfusion hrun.2
        | ok t =>
          obtain ⟨R1, L1, c1, a1⟩ := t
          rw [hmerge] at hrun
          dsimp only at hrun
          have hp := merge_post cfg W.rem W.loc c R1 L1 c1 a1 hlog hmin hch hmerge
          have hap := afterMerge_post cfg R1 L1 c1 _ acts W' hrun
          refine ⟨?_, ?_, hap.2.1, ?_, ?_, ?_⟩
          · rw [hap.1, hp.2.2.2.1, hauth]
          · rw [hap.2.2.1, hap.1, hp.2.2.1]
          · rw [hap.1]
            exact hp.1
          · rw [hap.1]
            exact hp.2.1
          · exact hap.2.2.2.1 (hp.2.2.2.2.2.2.1 hnd)
      · rw [if_neg hg] at hrun
        have hap := afterMerge_post cfg W.rem W.loc c [] acts W' hrun
        refine ⟨?_, ?_, hap.2.1, ?_, ?_, ?_⟩
        · rw [hap.1, hauth]
        · rw [hap.2.2.1, hap.1, hch]
        · rw [hap.1]
          exact hlog
        · rw [hap.1]
          exact hmin
        · exact hap.2.2.2.1 hnd
  · have hf : W.rem.authOk = false := by
      revert hauth; cases W.rem.authOk <;> simp
    rw [if_pos (by simp [hf])] at hrun
    simp only [Prod.mk.injEq] at hrun
    exact Except.noConfusion hrun.2

/-! ### A run over a converged world is a no-op -/

theorem alookup_isSome_of_mem (m : TagMap) (p : Id × Tags) (h : p ∈ m) :
    (alookup m p.1).isSome := by
  induction m with
  | nil => exact absurd h (List.not_mem_nil p)
  | cons q rest ih =>
    simp only [alookup]
    by_cases hq : q.1 = p.1
    · rw [if_pos hq]
      rfl
    · rw [if_neg hq]
      rcases List.mem_cons.mp h with h | h
      · exact absurd (congrArg Prod.fst h.symm) hq
      · exact ih h

theorem alookup_of_mem_nodup (m : TagMap) (p : Id × Tags)
    (hnd : (keysOf m).Nodup) (h : p ∈ m) : alookup m p.1 = some p.2 := by
  induction m with
  | nil => exact absurd h (List.not_mem_nil p)
  | cons q rest ih =>
    rw [keysOf_cons, List.nodup_cons] at hnd
    simp only [alookup]
    rcases List.mem_cons.mp h with h | h
    · subst h
      rw [if_pos rfl]
    · by_cases hq : q.1 = p.1
      · exfalso
        apply hnd.1
        rw [hq]
        exact List.mem_map.mpr ⟨p, h, rfl⟩
      · rw [if_neg hq]
        exact ih hnd.2 h

theorem local_get_changes_self (L : LState) (hs : L.snapshot = L.msgs)
    (hnd : (keysOf L.msgs).Nodup) : local_get_changes L = ([], []) := by
  unfold local_get_changes
  rw [hs]
  have h1 : L.msgs.filter (fun p =>
      match alookup L.msgs p.1 with
      | some t => decide (t ≠ p.2)
      | none => false) = [] := by
    rw [List.filter_eq_nil_iff]
    intro p hp
    rw [alookup_of_mem_nodup L.msgs p hnd hp]
    simp
  have h2 : L.msgs.filter (fun p => (alookup L.msgs p.1).isNone) = [] := by
    rw [List.filter_eq_nil_iff]
    intro p hp
    have h := alookup_isSome_of_mem L.msgs p hp
    cases hx : alookup L.msgs p.1
    · rw [hx] at h
      exact absurd h (by simp)
    · simp
  rw [h1, h2]
  rfl

theorem local_delete_nil (L : LState) : local_delete L [] = L := by
  unfold local_delete
  have h : L.msgs.filter (fun p => decide (p.1 ∉ ([] : List Id))) = L.msgs := by
    rw [List.filter_eq_self]
    intro p _
    simp
  rw [h]

theorem run_second (cfg : Cfg) (W : World)
    (hauth : W.rem.authOk = true)
    (hlast : W.prst.lastHistoryId = some W.rem.hist)
    (hsnap : W.loc.snapshot = W.loc.msgs)
    (hInv : Inv W) :
    detectChanges W = .ok ⟨[], [], [], [], [], W.rem.hist⟩ ∧
    run cfg W = ([Act.stepDelete, Act.stepPersist], .ok W) := by
  obtain ⟨R, ⟨lm, ls⟩, ⟨pl⟩⟩ := W
  obtain ⟨hlog, hmin, hnd⟩ := hInv
  dsimp only at hauth hlast hsnap hlog hmin hnd ⊢
  subst hsnap
  subst hlast
  have hinc : changes_incremental ⟨R, ⟨ls, ls⟩, ⟨some R.hist⟩⟩
      = .ok ⟨[], [], [], [], [], R.hist⟩ := by
    unfold changes_incremental
    dsimp only
    rw [get_changes_at_current R hlog hmin]
    dsimp only
    rw [local_get_changes_self ⟨ls, ls⟩ rfl hnd]
    rfl
  have hdet : detectChanges ⟨R, ⟨ls, ls⟩, ⟨some R.hist⟩⟩
      = .ok ⟨[], [], [], [], [], R.hist⟩ := by
    unfold detectChanges
    rw [hinc]
  refine ⟨hdet, ?_⟩
  unfold run
  rw [if_neg (by simp [hauth])]
  rw [hdet]
  dsimp only
  unfold applyChanges
  rw [if_neg (by simp)]
  unfold afterMerge deleteStep
  simp only [List.isEmpty_nil, if_true, List.map_nil]
  rw [local_delete_nil ⟨ls, ls⟩]
  rfl

/-- C8: After a successful run, running the whole sequence again on the
resulting world detects an empty ChangeSet (all five categories empty),
performs zero store mutations, and leaves the world unchanged: the only
activity of the second run is the (unconditional) delete step applied to
the empty set and the re-persisting of the same cursor and marker. -/
theorem run_twice_is_idempotent (cfg : Cfg) (W : World) (acts1 : List Act)
    (W' : World) (hInv : Inv W) (hrun : run cfg W = (acts1, .ok W')) :
    detectChanges W' = .ok ⟨[], [], [], [], [], W'.rem.hist⟩ ∧
    run cfg W' = ([Act.stepDelete, Act.stepPersist], .ok W') ∧
    (run cfg W').1.filter isMutation = [] := by
  obtain ⟨hauth, hlast, hsnap, hInv'⟩ := run_ok_post cfg W acts1 W' hInv hrun
  obtain ⟨hdet, hrun2⟩ := run_second cfg W' hauth hlast hsnap hInv'
  refine ⟨hdet, hrun2, ?_⟩
  rw [hrun2]
  rfl

/-- Concrete instantiation of idempotence: a converged world with cursor
0 runs to itself with no mutation actions. -/
theorem run_twice_is_idempotent_witness :
    Inv exIdemW ∧
    run cfgEx exIdemW = ([Act.stepDelete, Act.stepPersist], .ok exIdemW) ∧
    detectChanges exIdemW = .ok ⟨[], [], [], [], [], 0⟩ ∧
    (run cfgEx exIdemW).1.filter isMutation = [] := by
  have h := run_twice_is_idempotent cfgEx exIdemW [Act.stepDelete, Act.stepPersist]
    exIdemW (by decide) (by decide)
  exact ⟨by decide, by decide, h.1, h.2.2⟩

/-! ### Failed runs persist nothing -/

theorem afterMerge_snd_ok (cfg : Cfg) (R : RState) (L : LState) (c : Changes)
    (a0 : List Act) : ∃ W', (afterMerge cfg R L c a0).2 = .ok W' :=
  ⟨_, rfl⟩

theorem run_error_no_persist (cfg : Cfg) (W : World) (acts : List Act)
    (e : GErr) (hrun : run cfg W = (acts, .error e)) :
    Act.stepPersist ∉ acts := by
  unfold run at hrun
  by_cases hauth : W.rem.authOk = true
  · rw [if_neg (by simp [hauth])] at hrun
    cases hdet : detectChanges W with
    | error e0 =>
      rw [hdet] at hrun
      dsimp only at hrun
      simp only [Prod.mk.injEq] at hrun
      rw [← hrun.1]
      exact List.not_mem_nil _
    | ok c =>
      rw [hdet] at hrun
      dsimp only at hrun
      unfold applyChanges at hrun
      by_cases hg : (!c.l_updated.isEmpty || !c.r_updated.isEmpty) = true
      · rw [if_pos hg] at hrun
        cases hmerge : merge cfg W.rem W.loc c with
        | error e1 =>
          rw [hmerge] at hrun
          dsimp only at hrun
          simp only [Prod.mk.injEq] at hrun
          rw [← hrun.1]
          simp
        | ok t =>
          obtain ⟨R1, L1, c1, a1⟩ := t
          rw [hmerge] at hrun
          dsimp only at hrun
          obtain ⟨W2, hW2⟩ := afterMerge_snd_ok cfg R1 L1 c1 (Act.stepMerge :: a1)
          have := congrArg Prod.snd hrun
          rw [hW2] at this
          exact Except.noConfusion this
      · rw [if_neg hg] at hrun
        obtain ⟨W2, hW2⟩ := afterMerge_snd_ok cfg W.rem W.loc c []
        have := congrArg Prod.snd hrun
        rw [hW2] at this
        exact Except.noConfusion this
  · have hf : W.rem.authOk = false := by
      revert hauth; cases W.rem.authOk <;> simp
    rw [if_pos (by simp [hf])] at hrun
    simp only [Prod.mk.injEq] at hrun
    rw [← hrun.1]
    exact List.not_mem_nil _

/-- C3: A "cursor too old" answer from the remote incremental-diff query
is recoverable: change detection falls back to full reconciliation
within the same run.  Any other remote-store error (an authentication
failure at the start of the run, or any error that reaches the caller,
such as a failed push mid-run) aborts the run: no action trace ever
contains the persistence step, and `main` maps such a run to the
non-zero exit code 1. -/
theorem cursor_too_old_falls_back_other_errors_abort :
    (∀ (W : World) (h : Nat),
      W.prst.lastHistoryId = some h → h < W.rem.minCursor →
      detectChanges W = changes_full W) ∧
    (∀ (cfg : Cfg) (W : World), W.rem.authOk = false →
      run cfg W = ([], .error .auth) ∧ exitCode (.normal (run cfg W)) = 1) ∧
    (∀ (cfg : Cfg) (W : World) (acts : List Act) (e : GErr),
      run cfg W = (acts, .error e) →
      Act.stepPersist ∉ acts ∧ exitCode (.normal (run cfg W)) = 1) := by
  refine ⟨?_, ?_, ?_⟩
  · intro W h hlast hlt
    have hinc : changes_incremental W = .error () := by
      unfold changes_incremental
      rw [hlast]
      dsimp only
      have hgc : get_changes W.rem h = .error .tooOld := by
        unfold get_changes
        rw [if_pos hlt]
      rw [hgc]
    unfold detectChanges
    rw [hinc]
  · intro cfg W hf
    have hr : run cfg W = ([], .error .auth) := by
      unfold run
      rw [if_pos (by simp [hf])]
    exact ⟨hr, by rw [hr]; rfl⟩
  · intro cfg W acts e hrun
    exact ⟨run_error_no_persist cfg W acts e hrun, by rw [hrun]; rfl⟩

/-- Concrete instantiation of the error-taxonomy theorem: a too-old
cursor world falls back to full reconciliation, an unauthenticated world
aborts with exit code 1, and a failed mid-run push leaves a trace
without the persistence step. -/
theorem cursor_too_old_falls_back_other_errors_abort_witness :
    detectChanges exTooOldW = changes_full exTooOldW ∧
    run cfgEx exNoAuthW = ([], .error .auth) ∧
    exitCode (.normal (run cfgEx exNoAuthW)) = 1 ∧
    Act.stepPersist ∉ (run cfgEx exPushFailW).1 := by
  have h := cursor_too_old_falls_back_other_errors_abort
  have h2 := h.2.1 cfgEx exNoAuthW (by decide)
  have h3 := h.2.2 cfgEx exPushFailW [Act.stepMerge] GErr.push (by decide)
  have hr : run cfgEx exPushFailW = ([Act.stepMerge], .error .push) := by decide
  refine ⟨h.1 exTooOldW 2 (by decide) (by decide), h2.1, h2.2, ?_⟩
  rw [hr]
  exact h3.1

/-- C4 counterexample: on a fully converged world the detected ChangeSet
has `remote_deleted = []`, yet the delete step still executes — `run`
calls `self.delete(changes.r_deleted)` unconditionally (`__main__.py`
line 302), so "delete only if remote_deleted is non-empty" is false. -/
theorem delete_step_runs_with_empty_remote_deleted :
    detectChanges exQuietW = .ok ⟨[], [], [], [], [], 7⟩ ∧
    run cfgEx exQuietW = ([Act.stepDelete, Act.stepPersist], .ok exQuietW) ∧
    Act.stepDelete ∈ (run cfgEx exQuietW).1 := by decide

/-- C4 (amended): Merge runs only when `l_updated` or `r_updated` is
non-empty and fetch only when `r_new` is non-empty, while the delete step
runs unconditionally (a no-op on an empty `remote_deleted`); the steps of
a successful run occur in the fixed order merge, fetch, delete, persist,
and the persistence step happens last and only on runs where every prior
step completed without a fatal error. -/
theorem run_steps_ordered_and_guarded (cfg : Cfg) (W : World) :
    (∀ (c : Changes) (acts : List Act) (W' : World),
      detectChanges W = .ok c → run cfg W = (acts, .ok W') →
      acts.filter isStep =
        (if (!c.l_updated.isEmpty || !c.r_updated.isEmpty) = true
         then [Act.stepMerge] else []) ++
        (if c.r_new.isEmpty = true then [] else [Act.stepFetch]) ++
        [Act.stepDelete, Act.stepPersist]) ∧
    (∀ (acts : List Act) (e : GErr), run cfg W = (acts, .error e) →
      Act.stepPersist ∉ acts) := by
  constructor
  · intro c acts W' hdet hrun
    unfold run at hrun
    by_cases hauth : W.rem.authOk = true
    · rw [if_neg (by simp [hauth]), hdet] at hrun
      dsimp only at hrun
      unfold applyChanges at hrun
      by_cases hg : (!c.l_updated.isEmpty || !c.r_updated.isEmpty) = true
      · rw [if_pos hg] at hrun
        rw [if_pos hg]
        cases hmerge : merge cfg W.rem W.loc c with
        | error e1 =>
          rw [hmerge] at hrun
          dsimp only at hrun
          simp only [Prod.mk.injEq] at hrun
          exact absurd hrun.2 (by simp)
        | ok t =>
          obtain ⟨R1, L1, c1, a1⟩ := t
          rw [hmerge] at hrun
          dsimp only at hrun
          have hlog2 : ∀ x ∈ W.rem.log, x.1 ≤ W.rem.hist → True := fun _ _ _ => trivial
          have hap := afterMerge_post cfg R1 L1 c1 _ acts W' hrun
          have hsteps : a1.filter isStep = [] := by
            simp only [merge] at hmerge
            by_cases hgp : (cfg.push_local_tags && !(mergeResolve cfg c).l_updated.isEmpty) = true
            · rw [if_pos hgp] at hmerge
              rcases hp : push_tags W.rem (mergeResolve cfg c).l_updated with e2 | Rp
              · rw [hp] at hmerge
                dsimp only at hmerge
                exact Except.noConfusion hmerge
              · rw [hp] at hmerge
                dsimp only at hmerge
                by_cases hru : (!(mergeResolve cfg c).r_updated.isEmpty) = true
                · rw [if_pos hru] at hmerge
                  simp only [Except.ok.injEq, Prod.mk.injEq] at hmerge
                  rw [← hmerge.2.2.2]
                  simp [isStep]
                · rw [if_neg hru] at hmerge
                  simp only [Except.ok.injEq, Prod.mk.injEq] at hmerge
                  rw [← hmerge.2.2.2]
                  simp [isStep]
            · rw [if_neg hgp] at hmerge
              by_cases hru : (!(mergeResolve cfg c).r_updated.isEmpty) = true
              · rw [if_pos hru] at hmerge
                simp only [Except.ok.injEq, Prod.mk.injEq] at hmerge
                rw [← hmerge.2.2.2]
                simp [isStep]
              · rw [if_neg hru] at hmerge
                simp only [Except.ok.injEq, Prod.mk.injEq] at hmerge
                rw [← hmerge.2.2.2]
                simp [isStep]
          have hrnew : c1.r_new = c.r_new := by
            simp only [merge] at hmerge
            by_cases hgp : (cfg.push_local_tags && !(mergeResolve cfg c).l_updated.isEmpty) = true
            · rw [if_pos hgp] at hmerge
              rcases hp : push_tags W.rem (mergeResolve cfg c).l_updated with e2 | Rp
              · rw [hp] at hmerge
                dsimp only at hmerge
                exact Except.noConfusion hmerge
              · rw [hp] at hmerge
                dsimp only at hmerge
                by_cases hru : (!(mergeResolve cfg c).r_updated.isEmpty) = true
                · rw [if_pos hru] at hmerge
                  simp only [Except.ok.injEq, Prod.mk.injEq] at hmerge
                  rw [← hmerge.2.2.1]
                  exact (mergeResolve_preserves cfg c).2.1
                · rw [if_neg hru] at hmerge
                  simp only [Except.ok.injEq, Prod.mk.injEq] at hmerge
                  rw [← hmerge.2.2.1]
                  exact (mergeResolve_preserves cfg c).2.1
            · rw [if_neg hgp] at hmerge
              by_cases hru : (!(mergeResolve cfg c).r_updated.isEmpty) = true
              · rw [if_pos hru] at hmerge
                simp only [Except.ok.injEq, Prod.mk.injEq] at hmerge
                rw [← hmerge.2.2.1]
                exact (mergeResolve_preserves cfg c).2.1
              · rw [if_neg hru] at hmerge
                simp only [Except.ok.injEq, Prod.mk.injEq] at hmerge
                rw [← hmerge.2.2.1]
                exact (mergeResolve_preserves cfg c).2.1
          rw [hap.2.2.2.2, hrnew]
          have hfetch : ∀ ids, ((fetch cfg R1 L1 ids).2).filter isStep = [] :=
            fun ids => fetchGo_no_steps _ _ _
          by_cases hrn : c.r_new.isEmpty = true
          · rw [if_pos hrn, if_pos hrn]
            simp only [List.filter_append, List.filter_cons, List.filter_nil]
            simp [isStep, hsteps, map_deleteMsg_no_steps]
          · rw [if_neg hrn, if_neg hrn]
            simp only [List.filter_append, List.filter_cons, List.filter_nil]
            simp [isStep, hsteps, map_deleteMsg_no_steps, hfetch]
      · rw [if_neg hg] at hrun
        rw [if_neg hg]
        have hap := afterMerge_post cfg W.rem W.loc c [] acts W' hrun
        rw [hap.2.2.2.2]
        have hfetch : ∀ ids, ((fetch cfg W.rem W.loc ids).2).filter isStep = [] :=
          fun ids => fetchGo_no_steps _ _ _
        by_cases hrn : c.r_new.isEmpty = true
        · rw [if_pos hrn, if_pos hrn]
          simp only [List.filter_append, List.filter_cons, List.filter_nil]
          simp [isStep, map_deleteMsg_no_steps]
        · rw [if_neg hrn, if_neg hrn]
          simp only [List.filter_append, List.filter_cons, List.filter_nil]
          simp [isStep, map_deleteMsg_no_steps, hfetch]
    · have hf : W.rem.authOk = false := by
        revert hauth; cases W.rem.authOk <;> simp
      rw [if_pos (by simp [hf])] at hrun
      simp only [Prod.mk.injEq] at hrun
      exact absurd hrun.2 (by simp)
  · intro acts e hrun
    exact run_error_no_persist cfg W acts e hrun

/-- Concrete instantiation of the step-ordering theorem: on a converged
world the step trace is exactly delete-then-persist. -/
theorem run_steps_ordered_and_guarded_witness :
    (run cfgEx exQuietW).1.filter isStep = [Act.stepDelete, Act.stepPersist] := by
  have h := (run_steps_ordered_and_guarded cfgEx exQuietW).1
    ⟨[], [], [], [], [], 7⟩ [Act.stepDelete, Act.stepPersist] exQuietW
    (by decide) (by decide)
  have hr : run cfgEx exQuietW = ([Act.stepDelete, Act.stepPersist], .ok exQuietW) := by
    decide
  rw [hr]
  rw [h]
  decide

/-- C1: On the spec's own scenario (remote `{A:[x], B:[y], C:[z]}`, local
`{B:[y2], D:[w]}`), the source's full reconciliation computes
`remote_new = {A,C}` and `remote_updated = {B:[y]}` as the claim states,
but `remote_deleted = {A,C}` (line 188 computes `r_all -
all_local.keys()`, i.e. R∖L) instead of the claimed `{D}` (L∖R): the
locally-present, remotely-deleted id `D` is never classified as deleted. -/
theorem changes_full_misclassifies_remote_deletions :
    changes_full exWorldC1 =
      .ok ⟨[], [], [("B", ["y"])], ["A", "C"], ["A", "C"], 7⟩ := by decide

/-- C7: The source's full reconciliation violates the
`remote_new`/`remote_updated`/`remote_deleted` disjointness invariant:
on `exWorldC7` the id `A` (remote-only, hence `remote_new`) also lands in
`remote_deleted`, because line 188 computes `r_deleted` as R∖L — the same
set as `remote_new` whenever the local store is non-empty. -/
theorem changes_full_breaks_category_disjointness :
    changes_full exWorldC7 = .ok exChangesC7 ∧
    "A" ∈ exChangesC7.r_new ∧ "A" ∈ exChangesC7.r_deleted := by decide

/-- C9: `main`'s exit-code policy — 0 on normal completion, 0 when
another instance is already running (non-error), 2 on user interrupt,
and 1 on an unrecoverable remote-store error during a run; the interrupt
and remote-error codes are non-zero and distinct from each other. -/
theorem main_exit_code_policy :
    (∀ (acts : List Act) (W : World), exitCode (.normal (acts, .ok W)) = 0) ∧
    exitCode .alreadyRunning = 0 ∧
    exitCode .interrupted = 2 ∧
    (∀ (acts : List Act) (e : GErr), exitCode (.normal (acts, .error e)) = 1) ∧
    (∀ (cfg : Cfg) (W : World) (acts : List Act) (e : GErr),
      run cfg W = (acts, .error e) → exitCode (.normal (run cfg W)) = 1) ∧
    exitCode .interrupted ≠ 0 ∧
    exitCode (.normal ([], .error .auth)) ≠ 0 ∧
    exitCode .interrupted ≠ exitCode (.normal ([], .error .auth)) := by
  refine ⟨fun _ _ => rfl, rfl, rfl, fun _ _ => rfl, ?_, by decide, by decide, by decide⟩
  intro cfg W acts e h
  rw [h]
  rfl

/-- Concrete instantiation of the exit-code theorem: the unauthenticated
world's failed run exits with code 1. -/
theorem main_exit_code_policy_witness :
    run cfgEx exNoAuthW = ([], .error .auth) ∧
    exitCode (.normal (run cfgEx exNoAuthW)) = 1 :=
  ⟨by decide, main_exit_code_policy.2.2.2.2.1 cfgEx exNoAuthW [] .auth (by decide)⟩

/-! ### `human_size` lemmas -/

theorem hsAux_snd_le (k : Nat) : ∀ (q : ℚ) (u : Nat), (hsAux k q u).2 ≤ u + k := by
  induction k with
  | zero => intro q u; rfl
  | succ k ih =>
    intro q u
    simp only [hsAux]
    by_cases hc : (1000 : ℚ) ≤ q
    · rw [if_pos hc]
      have := ih (fl64 (qdiv q 1000)) (u + 1)
      omega
    · rw [if_neg hc]
      simp

theorem hsAux_le_snd (k : Nat) : ∀ (q : ℚ) (u : Nat), u ≤ (hsAux k q u).2 := by
  induction k with
  | zero => intro q u; exact le_refl u
  | succ k ih =>
    intro q u
    simp only [hsAux]
    by_cases hc : (1000 : ℚ) ≤ q
    · rw [if_pos hc]
      have := ih (fl64 (qdiv q 1000)) (u + 1)
      omega
    · rw [if_neg hc]

theorem hsAux_stop (k : Nat) : ∀ (q : ℚ) (u : Nat), u + k = 7 →
    (hsAux k q u).2 < 7 → ¬(1000 : ℚ) ≤ (hsAux k q u).1 := by
  induction k with
  | zero =>
    intro q u h7 hlt
    exfalso
    have : (hsAux 0 q u).2 = u := rfl
    omega
  | succ k ih =>
    intro q u h7 hlt
    by_cases hc : (1000 : ℚ) ≤ q
    · simp only [hsAux] at hlt ⊢
      rw [if_pos hc] at hlt ⊢
      exact ih (fl64 (qdiv q 1000)) (u + 1) (by omega) hlt
    · simp only [hsAux]
      rw [if_neg hc]
      exact hc

set_option maxRecDepth 20000 in
/-- C10 counterexample: `10^21 - 1` lies inside the claim's
string-returning range `1000 ≤ size < 1000^7`, yet `human_size` returns
the non-string value `1.0`: float rounding makes the first division
yield exactly `10^18`, the loop then runs all seven divisions, `UNITS[7]`
raises `IndexError`, and the bare `except:` returns the divided float —
exactly what CPython does on this input. -/
theorem human_size_in_range_returns_non_string :
    1000 ≤ 10 ^ 21 - 1 ∧ (10 ^ 21 - 1 : Nat) < 1000 ^ 7 ∧
    human_size (10 ^ 21 - 1) = .inr 1 := by
  refine ⟨by decide, by decide, by decide⟩

/-- C10 (amended): `human_size` is total on numeric input and never
raises.  Sizes below 1000 are returned as their decimal string,
unchanged.  For `size ≥ 1000`, when the first division would overflow
binary64 the unchanged size is returned as a value (the swallowed
`OverflowError`); otherwise the float division loop divides between one
and seven times, and: if it stops inside the unit table (`u < 7`) the
value is below 1000 and the result is the repeatedly divided value
formatted to one decimal place with the `u`-th unit letter of
`B/K/M/G/T/P/E`; if it exhausts the table (`u = 7` — which float
rounding makes possible even for some `size < 1000^7`) the divided
value itself is returned instead of the `IndexError` propagating. -/
theorem human_size_total_spec (n : Nat) :
    (n < 1000 → human_size n = .inl (toString n)) ∧
    (1000 ≤ n → overflows64 (qdiv (n : ℚ) 1000) = true →
      human_size n = .inr (n : ℚ)) ∧
    (1000 ≤ n → overflows64 (qdiv (n : ℚ) 1000) = false →
      ∀ q u, hsLoop (n : ℚ) 0 = (q, u) →
        1 ≤ u ∧ u ≤ 7 ∧
        (u < 7 → ¬(1000 : ℚ) ≤ q ∧
          human_size n = .inl (fmt1 q ++ UNITS.getD u "")) ∧
        (u = 7 → human_size n = .inr q)) := by
  refine ⟨?_, ?_, ?_⟩
  · intro h
    unfold human_size
    rw [if_pos h]
  · intro h1 h2
    unfold human_size
    rw [if_neg (by omega), if_pos h2]
  · intro h1 h2 q u hq
    have hq0 : hsAux 7 (n : ℚ) 0 = (q, u) := hq
    have h1Q : (1000 : ℚ) ≤ (n : ℚ) := by exact_mod_cast h1
    have hstep : hsAux 7 (n : ℚ) 0 = hsAux 6 (fl64 (qdiv ((n : ℚ)) 1000)) 1 := by
      rw [show (7 : ℕ) = 6 + 1 from rfl]
      simp only [hsAux]
      rw [if_pos h1Q]
    have h1le : 1 ≤ u := by
      have hm := hsAux_le_snd 6 (fl64 (qdiv ((n : ℚ)) 1000)) 1
      rw [← hstep, hq0] at hm
      exact hm
    have hle7 : u ≤ 7 := by
      have hm := hsAux_snd_le 7 (n : ℚ) 0
      rw [hq0] at hm
      simpa using hm
    refine ⟨h1le, hle7, ?_, ?_⟩
    · intro hu7
      constructor
      · have hstop := hsAux_stop 7 (n : ℚ) 0 rfl (by rw [hq0]; exact hu7)
        rw [hq0] at hstop
        exact hstop
      · unfold human_size
        rw [if_neg (by omega), if_neg (by simp [h2])]
        rw [hq]
        dsimp only
        rw [dif_pos (show u < UNITS.length from hu7)]
        have hgd : UNITS.getD u "" = UNITS.get ⟨u, hu7⟩ :=
          List.getD_eq_get UNITS "" hu7
        rw [hgd]
    · intro hu7
      unfold human_size
      rw [if_neg (by omega), if_neg (by simp [h2])]
      rw [hq]
      dsimp only
      subst hu7
      rw [dif_neg (by decide)]

set_option maxRecDepth 20000 in
/-- Concrete instantiation of the amended `human_size` theorem: `5` is
rendered verbatim, `1250000` gives `"1.2M"` (the tie `1.25` rounding to
even, as CPython prints), and `10^18 - 1` gives `"1.0E"` (float rounding
carries the first division up to exactly `10^15`). -/
theorem human_size_total_spec_witness :
    human_size 5 = .inl (toString 5) ∧
    human_size 1250000 = .inl "1.2M" ∧
    human_size (10 ^ 18 - 1) = .inl "1.0E" := by
  refine ⟨(human_size_total_spec 5).1 (by decide), ?_, by decide⟩
  have h := (human_size_total_spec 1250000).2.2 (by decide) (by decide)
    (mkRat 5 4) 2 (by decide)
  have h2 := (h.2.2.1 (by decide)).2
  rw [h2]
  decide


end NotmuchGmailSync
